import Mathlib

/-!
Verification of the helper utilities in `pyrogram_helpers.py`.

The Python functions are shallowly embedded as Lean functions over
`String`/`List Char`, `Int`, `Nat` and `Option`:
  * Python exceptions (`ValueError` from `int(...)`) are modelled by `Option`;
    a `try/except` block becomes a `match` on the `Option` result.
  * Python truthiness of strings / optional strings ("empty or None is falsy")
    is modelled by `pyTruthy`.
  * Character classes (`str.split()` whitespace, `\w`, `\d`, `int()` digits)
    are modelled over their ASCII fragments, which is the fragment the
    repository's inputs (Telegram links, bot commands, OTP codes) live in.
  * The IEEE-754 arithmetic in `format_size` is modelled exactly:
    `float(bytes_size)` rounds the integer to 53 significant bits (ties to
    even) and raises `OverflowError` when the result reaches `2^1024`
    (modelled by `Option`); the later divisions by 1024 are exact on doubles,
    so the running value is the integer pair `n / 1024^k`, and `%.2f`
    formatting is round-half-to-even at two decimal places.
-/

/-- ASCII/latin-1 whitespace as recognised by Python `str.strip()`/`str.split()`. -/
def pyIsSpace (c : Char) : Bool :=
  c = ' ' || c = '\t' || c = '\n' || c = '\x0d' || c = '\x0b' || c = '\x0c'

/-- Python `str.strip()`: drop whitespace from both ends. -/
def pyStrip (cs : List Char) : List Char :=
  ((cs.dropWhile pyIsSpace).reverse.dropWhile pyIsSpace).reverse

/-- Helper for `pySplit`: accumulates the current (reversed) token. -/
def pySplitAux (acc : List Char) : List Char → List (List Char)
  | [] => if acc.isEmpty then [] else [acc.reverse]
  | c :: rest =>
    if pyIsSpace c then
      if acc.isEmpty then pySplitAux [] rest else acc.reverse :: pySplitAux [] rest
    else
      pySplitAux (c :: acc) rest

/-- Python `str.split()` with no separator: split on runs of whitespace,
discarding empty tokens. -/
def pySplit (cs : List Char) : List (List Char) :=
  pySplitAux [] cs

/-- Python `str.split(sep)` for a one-character separator: empty tokens kept,
`"".split(sep) = [""]`. -/
def splitSep (sep : Char) : List Char → List (List Char)
  | [] => [[]]
  | c :: rest =>
    let r := splitSep sep rest
    if c = sep then [] :: r
    else
      match r with
      | t :: ts => (c :: t) :: ts
      | [] => [[c]]

/-- Python `pat in s` substring test. -/
def containsSub (pat : List Char) : List Char → Bool
  | [] => pat.isEmpty
  | c :: rest => pat.isPrefixOf (c :: rest) || containsSub pat rest

/-- Python truthiness of an optional string: `None` and `""` are falsy. -/
def pyTruthy : Option String → Bool
  | none => false
  | some s => s ≠ ""

/-- Digit-string accumulator for Python `int()`: ASCII digits, with single
underscores allowed between digits (PEP 515). -/
def pyDigits (acc : Nat) : List Char → Option Nat
  | [] => some acc
  | '_' :: c :: rest =>
    if c.isDigit then pyDigits (acc * 10 + (c.toNat - 48)) rest else none
  | ['_'] => none
  | c :: rest =>
    if c.isDigit then pyDigits (acc * 10 + (c.toNat - 48)) rest else none

/-- Python `int(s)` after whitespace stripping: optional sign, then a digit
string that must start with a digit. -/
def pyIntCore : List Char → Option Int
  | '-' :: c :: rest =>
    if c.isDigit then (pyDigits (c.toNat - 48) rest).map (fun n => -(n : Int)) else none
  | '+' :: c :: rest =>
    if c.isDigit then (pyDigits (c.toNat - 48) rest).map (fun n => (n : Int)) else none
  | c :: rest =>
    if c.isDigit then (pyDigits (c.toNat - 48) rest).map (fun n => (n : Int)) else none
  | [] => none

/-- Python `int(s)`: `some n` on success, `none` models a raised `ValueError`. -/
def pyInt (cs : List Char) : Option Int :=
  pyIntCore (pyStrip cs)

/-- `parse_command` (pyrogram_helpers.py lines 13-25): empty text or text not
starting with the slash prefix yields `[]`; otherwise `text.split()`. -/
def parse_command (text : String) : List String :=
  match text.data with
  | c :: _ => if c = '/' then (pySplit text.data).map String.mk else []
  | [] => []

/-- `get_message_link` (lines 89-107): public link when the username is truthy,
otherwise a private `/c/` link with a literal `-100` prefix stripped from the
decimal representation of the chat id. -/
def get_message_link (chat_id : Int) (message_id : Int) (username : Option String) : String :=
  if pyTruthy username then
    "https://t.me/" ++ username.getD "" ++ "/" ++ toString message_id
  else
    let s := toString chat_id
    let s := if s.data.take 4 = ['-', '1', '0', '0'] then String.mk (s.data.drop 4) else s
    "https://t.me/c/" ++ s ++ "/" ++ toString message_id

/-- Chat reference returned by the link parser: numeric id or public username. -/
inductive ChatRef where
  | id (n : Int)
  | username (s : String)
deriving DecidableEq, Repr

/-- Result triple of `parse_message_link`: (chat, thread id, message id). -/
abbrev LinkTriple := Option ChatRef × Option Int × Option Int

/-- Lines 120-123 of `parse_message_link`: strip whitespace, then drop a query
string (`link.split('?')[0]`). -/
def cleanLink (link : String) : List Char :=
  let l := pyStrip link.data
  if l.contains '?' then l.takeWhile (fun c => c ≠ '?') else l

/-- Line 125 of `parse_message_link`: `link.rstrip('/').split('/')`. -/
def linkParts (link : String) : List (List Char) :=
  splitSep '/' ((cleanLink link).reverse.dropWhile (fun c => c = '/')).reverse

/-- Python negative index `parts[-k]` (total, guarded by length checks at use
sites exactly as in the source). -/
def negIdx (parts : List (List Char)) (k : Nat) : List Char :=
  parts.getD (parts.length - k) []

/-- Lines 128-137: the `/c/` private-link branch of `parse_message_link`,
including the re-parse of `f"-100{channel_id}"`; any `ValueError` escapes to
the outer handler, giving the empty triple. -/
def privateBranch (parts : List (List Char)) : LinkTriple :=
  if parts.length ≥ 7 then
    match pyInt (negIdx parts 3), pyInt (negIdx parts 2), pyInt (negIdx parts 1) with
    | some channel_id, some thread_id, some message_id =>
      match pyInt ("-100" ++ toString channel_id).data with
      | some full => (some (ChatRef.id full), some thread_id, some message_id)
      | none => (none, none, none)
    | _, _, _ => (none, none, none)
  else if parts.length ≥ 6 then
    match pyInt (negIdx parts 2), pyInt (negIdx parts 1) with
    | some channel_id, some message_id =>
      match pyInt ("-100" ++ toString channel_id).data with
      | some full => (some (ChatRef.id full), none, some message_id)
      | none => (none, none, none)
    | _, _ => (none, none, none)
  else (none, none, none)

/-- Lines 139-146: the inner `try` of the public branch (≥6 segments, with a
thread id); `none` models the swallowed `ValueError` of either `int()`. -/
def publicWithThread (parts : List (List Char)) : Option LinkTriple :=
  if parts.length ≥ 6 then
    match pyInt (negIdx parts 2), pyInt (negIdx parts 1) with
    | some thread_id, some message_id =>
      some (some (ChatRef.username (String.mk (negIdx parts 3))), some thread_id, some message_id)
    | _, _ => none
  else none

/-- Lines 139-151: the public-link branch. A swallowed failure of the
with-thread form falls through to the ≥4-segment form; a `ValueError` there
escapes to the outer handler. -/
def publicBranch (parts : List (List Char)) : LinkTriple :=
  match publicWithThread parts with
  | some r => r
  | none =>
    if parts.length ≥ 4 then
      match pyInt (negIdx parts 1) with
      | some message_id => (some (ChatRef.username (String.mk (negIdx parts 2))), none, some message_id)
      | none => (none, none, none)
    else (none, none, none)

/-- `parse_message_link` (lines 110-156): best-effort parser; every failure
path (modelled `ValueError`/`IndexError`) lands on `(none, none, none)`. -/
def parse_message_link (link : String) : LinkTriple :=
  if containsSub ['/', 'c', '/'] (cleanLink link) then privateBranch (linkParts link)
  else publicBranch (linkParts link)

/-- `format_time` (lines 159-184): negative input gives "0s"; otherwise an
h/m/s decomposition, omitting zero components, with "0s" when all are zero. -/
def format_time (seconds : Int) : String :=
  if seconds < 0 then "0s"
  else
    let n := seconds.toNat
    let hours := n / 3600
    let minutes := (n % 3600) / 60
    let secs := n % 60
    let parts :=
      (if hours > 0 then [toString hours ++ "h"] else []) ++
      (if minutes > 0 then [toString minutes ++ "m"] else []) ++
      (if secs > 0 ∨ (hours = 0 ∧ minutes = 0) then [toString secs ++ "s"] else [])
    String.intercalate " " parts

/-- The unit ladder of `format_size` (line 200). -/
def sizeUnits : List String := ["B", "KB", "MB", "GB", "TB"]

/-- The division loop of `format_size` (lines 204-206): the running float
`size` is represented exactly as `num / den`; each iteration multiplies the
denominator by 1024. Fuel is `len(units) - 1 = 4`, matching the
`unit_index < len(units) - 1` guard. -/
def sizeLoop : Nat → Nat → Nat → Nat → Nat × Nat
  | 0, _, den, idx => (idx, den)
  | fuel + 1, num, den, idx =>
    if 1024 * den ≤ num then sizeLoop fuel num (den * 1024) (idx + 1) else (idx, den)

/-- Round `num / den` to the nearest integer, ties to even (the rounding of
C/Python `%.2f` on an exactly-represented double). Requires `den > 0`. -/
def roundHalfEven (num den : Nat) : Nat :=
  let q := num / den
  let r := num % den
  if 2 * r < den then q
  else if den < 2 * r then q + 1
  else if q % 2 = 0 then q else q + 1

/-- `f"{num/den:.2f}"` for an exactly-represented nonnegative value. -/
def twoDec (num den : Nat) : String :=
  let v := roundHalfEven (num * 100) den
  toString (v / 100) ++ "." ++ (if v % 100 < 10 then "0" else "") ++ toString (v % 100)

/-- Floor base-2 logarithm by fuelled structural recursion (the fuel `n`
bounds the number of halvings), so that it evaluates inside the kernel. -/
def log2fuel : Nat → Nat → Nat
  | 0, _ => 0
  | fuel + 1, n => if 2 ≤ n then log2fuel fuel (n / 2) + 1 else 0

/-- Floor base-2 logarithm. -/
def natLog2 (n : Nat) : Nat := log2fuel n n

/-- CPython `float(int)` conversion (line 201, `size = float(bytes_size)`):
round to nearest at 53 significant bits, ties to even; `none` models the
`OverflowError` raised when the rounded value reaches `2^1024`. The
conversion is the identity below `2^53`; above, the result is the exact
integer value of the nearest double. -/
def floatOfNat (n : Nat) : Option Nat :=
  if n < 2 ^ 53 then some n
  else
    let e := natLog2 n - 52
    let v := roundHalfEven n (2 ^ e) * 2 ^ e
    if v < 2 ^ 1024 then some v else none

/-- `format_size` (lines 187-211): negative gives "0 B" (checked before the
float conversion); otherwise `float(bytes_size)` runs first — its
`OverflowError` for huge counts propagates uncaught (`none`) — then the
1024-division loop on the double. Unit index 0 prints the integer value,
larger units print two decimals; divisions by 1024 and `%.2f` are exact on
the double, so the running value is `n / 1024^k` with `n` the double's
integer value. -/
def format_size (bytes_size : Int) : Option String :=
  if bytes_size < 0 then some "0 B"
  else
    match floatOfNat bytes_size.toNat with
    | none => none
    | some n =>
      let p := sizeLoop 4 n 1 0
      if p.1 = 0 then some (toString n ++ " B")
      else some (twoDec n p.2 ++ " " ++ sizeUnits.getD p.1 "")

/-- Input shape for `get_display_name`: Python `None`, a user-like object
(has a `first_name` attribute; `none` models both an absent attribute and a
`None` value, which the source treats identically via truthiness), or a
chat-like object (no `first_name`, has `title`). -/
inductive UserOrChat where
  | nullUser
  | user (first_name : Option String) (last_name : Option String)
  | chat (title : Option String)
deriving DecidableEq, Repr

/-- `get_display_name` (lines 214-234): `None` gives "Unknown"; user-like
concatenates truthy first/last names, strips, and falls back to "Unknown";
chat-like returns a truthy title or "Unknown". -/
def get_display_name : UserOrChat → String
  | .nullUser => "Unknown"
  | .user f l =>
    let name := f.getD ""
    let name := if pyTruthy l then name ++ " " ++ l.getD "" else name
    let stripped := String.mk (pyStrip name.data)
    if stripped ≠ "" then stripped else "Unknown"
  | .chat t => if pyTruthy t then t.getD "" else "Unknown"

/-- The `text`/`caption` content fields of a Pyrogram message. -/
structure MsgContent where
  text : Option String
  caption : Option String
deriving DecidableEq, Repr

/-- `get_message_text` (lines 287-297): `message.text or message.caption or ""`
with Python truthiness. -/
def get_message_text (m : MsgContent) : String :=
  if pyTruthy m.text then m.text.getD ""
  else if pyTruthy m.caption then m.caption.getD "" else ""

/-- Word character of the regex `\b` boundary (`\w`), ASCII fragment:
letters, digits, underscore. -/
def isWordChar (c : Char) : Bool :=
  c.isAlphanum || c = '_'

/-- `\b` seen from inside a digit run: the adjacent character (none at a
string edge) must not be a word character. -/
def nonWordEdge : Option Char → Bool
  | none => true
  | some c => !isWordChar c

/-- Consume exactly `n` leading ASCII digits (`\d{n}` at the current point). -/
def takeDigits : Nat → List Char → Option (List Char × List Char)
  | 0, cs => some ([], cs)
  | _ + 1, [] => none
  | n + 1, c :: cs =>
    if c.isDigit then (takeDigits n cs).map (fun p => (c :: p.1, p.2)) else none

/-- One attempt of `re.search(r'\b(\d{5,6})\b', ...)` at a fixed position:
`prevWord` is the wordness of the preceding character (false at the string
start). The engine greedily tries six digits, backtracks to five. -/
def matchAt (prevWord : Bool) (cs : List Char) : Option (List Char) :=
  if prevWord then none
  else
    match takeDigits 6 cs with
    | some (ds, rest) =>
      if nonWordEdge rest.head? then some ds
      else
        match takeDigits 5 cs with
        | some (ds5, rest5) => if nonWordEdge rest5.head? then some ds5 else none
        | none => none
    | none =>
      match takeDigits 5 cs with
      | some (ds5, rest5) => if nonWordEdge rest5.head? then some ds5 else none
      | none => none

/-- `re.search`: scan positions left to right, returning the first match. -/
def reSearch (prevWord : Bool) : List Char → Option (List Char)
  | [] => none
  | c :: rest =>
    match matchAt prevWord (c :: rest) with
    | some ds => some ds
    | none => reSearch (isWordChar c) rest

/-- `extract_code_from_message` (lines 237-254): `None` for falsy text,
otherwise the first `\b(\d{5,6})\b` match. -/
def extract_code_from_message (text : String) : Option String :=
  if text = "" then none
  else (reSearch false text.data).map String.mk

/-- Left-edge condition of a code run: the character preceding the run (the
last of `pre`, or the context wordness `flag` when `pre` is empty) is not a
word character. -/
def edgeOkBefore (flag : Bool) (pre : List Char) : Prop :=
  match pre.getLast? with
  | none => flag = false
  | some c => isWordChar c = false

/-- Specification-side notion for the extractor, generalised for induction:
position `i` of `cs` starts a run of exactly 5 or 6 digits whose left
neighbour (or `flag` at the start of `cs`) and right neighbour are not word
characters. -/
def CodeRunAux (flag : Bool) (cs : List Char) (i : Nat) (run : List Char) : Prop :=
  ∃ pre post, cs = pre ++ run ++ post ∧ pre.length = i ∧
    (run.length = 5 ∨ run.length = 6) ∧ run.all Char.isDigit = true ∧
    edgeOkBefore flag pre ∧ nonWordEdge post.head? = true

/-- The claim's notion: a run of exactly 5 or 6 consecutive digits starting at
index `i`, delimited on both sides by word boundaries. -/
def CodeRun (cs : List Char) (i : Nat) (run : List Char) : Prop :=
  CodeRunAux false cs i run

/-! ## C1, C2: link round-trips -/

/-- C1. Private-link round-trip: building a private link from
`(chat_id = -1001234567890, message_id = 55)` with no username and parsing it
back yields `(-1001234567890, none, 55)`. -/
theorem private_link_roundtrip :
    parse_message_link (get_message_link (-1001234567890) 55 none) =
      (some (ChatRef.id (-1001234567890)), none, some 55) := by
  decide

/-- C2. Public-link round-trip: for any `chat_id`, building a public link from
`(username = "foo", message_id = 9)` and parsing it back yields
`("foo", none, 9)`. -/
theorem public_link_roundtrip (chat_id : Int) :
    parse_message_link (get_message_link chat_id 9 (some "foo")) =
      (some (ChatRef.username "foo"), none, some 9) := by
  have h : get_message_link chat_id 9 (some "foo") = "https://t.me/foo/9" := rfl
  rw [h]
  decide

/-! ## C3, C4: parser branch behaviour -/

lemma privateBranch_shape (parts : List (List Char)) :
    privateBranch parts = (none, none, none) ∨
      ∃ c t m, privateBranch parts = (some c, t, some m) := by
  unfold privateBranch
  repeat' split
  all_goals first
    | exact Or.inl rfl
    | exact Or.inr ⟨_, _, _, rfl⟩

lemma publicWithThread_shape (parts : List (List Char)) (r : LinkTriple)
    (h : publicWithThread parts = some r) : ∃ c t m, r = (some c, t, some m) := by
  unfold publicWithThread at h
  revert h
  repeat' split
  all_goals intro h
  all_goals cases h
  all_goals exact ⟨_, _, _, rfl⟩

lemma publicBranch_shape (parts : List (List Char)) :
    publicBranch parts = (none, none, none) ∨
      ∃ c t m, publicBranch parts = (some c, t, some m) := by
  unfold publicBranch
  split
  · rename_i r hr
    rcases publicWithThread_shape parts r hr with ⟨c, t, m, rfl⟩
    exact Or.inr ⟨c, t, m, rfl⟩
  · repeat' split
    all_goals first
      | exact Or.inl rfl
      | exact Or.inr ⟨_, _, _, rfl⟩

/-- C4. `parse_message_link` is a total function of its input (exceptions are
modelled by `Option` and every raising path is caught), and each result is
all-or-nothing: either the fully empty triple, or a triple with chat
reference and message id both present. -/
theorem parse_link_total_all_or_nothing (link : String) :
    parse_message_link link = (none, none, none) ∨
      ∃ c t m, parse_message_link link = (some c, t, some m) := by
  unfold parse_message_link
  split
  · exact privateBranch_shape _
  · exact publicBranch_shape _

/-- C3. Public fall-through: if the cleaned link does not contain "/c/", the
path splits into at least 6 segments, the second-from-last segment is not
parseable as an integer, and the last one parses as `m`, then the parser
falls through to the without-thread branch and returns the second-from-last
segment as username with message id `m`. -/
theorem parse_link_public_fallthrough (link : String) (m : Int)
    (hc : containsSub ['/', 'c', '/'] (cleanLink link) = false)
    (hlen : (linkParts link).length ≥ 6)
    (hthread : pyInt (negIdx (linkParts link) 2) = none)
    (hmsg : pyInt (negIdx (linkParts link) 1) = some m) :
    parse_message_link link =
      (some (ChatRef.username (String.mk (negIdx (linkParts link) 2))), none, some m) := by
  unfold parse_message_link
  rw [hc]
  simp only [Bool.false_eq_true, if_false]
  unfold publicBranch publicWithThread
  rw [if_pos hlen, hthread, hmsg]
  have h4 : (linkParts link).length ≥ 4 := by omega
  simp only [if_pos h4]

/-- Witness for C3 at the concrete link "https://t.me/x/foo/55". -/
theorem parse_link_public_fallthrough_witness :
    parse_message_link "https://t.me/x/foo/55" =
      (some (ChatRef.username (String.mk (negIdx (linkParts "https://t.me/x/foo/55") 2))),
        none, some 55) :=
  parse_link_public_fallthrough "https://t.me/x/foo/55" 55
    (by decide) (by decide) (by decide) (by decide)

/-! ## C5: parse_command -/

lemma pySplitAux_first (c : Char) (rest : List Char) : ∀ mid : List Char,
    ∃ t ts, pySplitAux (mid ++ [c]) rest = t :: ts ∧ t.head? = some c := by
  induction rest with
  | nil =>
    intro mid
    refine ⟨(mid ++ [c]).reverse, [], ?_, ?_⟩
    · simp [pySplitAux]
    · simp
  | cons d rest ih =>
    intro mid
    by_cases hd : pyIsSpace d
    · refine ⟨(mid ++ [c]).reverse, pySplitAux [] rest, ?_, ?_⟩
      · simp [pySplitAux, hd]
      · simp
    · have step : pySplitAux (mid ++ [c]) (d :: rest) = pySplitAux ((d :: mid) ++ [c]) rest := by
        simp [pySplitAux, hd]
      rw [step]
      exact ih (d :: mid)

/-- C5. `parse_command` returns `[]` on empty text or text not starting with
the prefix character '/'; otherwise it returns the whitespace-split tokens of
the text, and the first token is the command (it starts with '/'). -/
theorem parse_command_spec (s : String) :
    ((s = "" ∨ s.data.head? ≠ some '/') → parse_command s = []) ∧
    (s.data.head? = some '/' →
      parse_command s = (pySplit s.data).map String.mk ∧
      ∃ t ts, parse_command s = t :: ts ∧ t.data.head? = some '/') := by
  constructor
  · intro h
    unfold parse_command
    cases hs : s.data with
    | nil => rfl
    | cons c rest =>
      cases h with
      | inl h =>
        rw [h] at hs
        cases hs
      | inr h =>
        rw [hs] at h
        simp only [List.head?] at h
        have hc : c ≠ '/' := fun hc => h (by rw [hc])
        simp [hs, hc]
  · intro h
    cases hs : s.data with
    | nil => rw [hs] at h; cases h
    | cons c rest =>
      rw [hs] at h
      simp only [List.head?, Option.some.injEq] at h
      subst h
      have hcmd : parse_command s = (pySplit ('/' :: rest)).map String.mk := by
        unfold parse_command
        simp [hs]
      refine ⟨hcmd, ?_⟩
      have hsplit : pySplit ('/' :: rest) = pySplitAux ([] ++ ['/']) rest := by
        simp [pySplit, pySplitAux, pyIsSpace]
      obtain ⟨t, ts, ht, hhead⟩ := pySplitAux_first '/' rest []
      refine ⟨String.mk t, (ts.map String.mk), ?_, hhead⟩
      rw [hcmd, hsplit, ht]
      rfl

/-- Witness for C5 at "hello" (no prefix) and "/cmd a" (command). -/
theorem parse_command_spec_witness :
    parse_command "hello" = [] ∧
    (parse_command "/cmd a" = (pySplit "/cmd a".data).map String.mk ∧
      ∃ t ts, parse_command "/cmd a" = t :: ts ∧ t.data.head? = some '/') :=
  ⟨(parse_command_spec "hello").1 (Or.inr (by decide)),
   (parse_command_spec "/cmd a").2 (by decide)⟩

/-! ## C6: format_time -/

/-- C6. `format_time`: negative seconds give "0s"; otherwise the input is
decomposed as `3600*h + 60*m + sec` with `m, sec < 60` and rendered by
joining the non-zero components (seconds still shown when all are zero) with
single spaces, larger units first; includes the three specified examples. -/
theorem format_time_spec :
    (∀ s : Int, s < 0 → format_time s = "0s") ∧
    (∀ s : Int, 0 ≤ s → ∃ h m sec : Nat,
      s.toNat = 3600 * h + 60 * m + sec ∧ m < 60 ∧ sec < 60 ∧
      format_time s = String.intercalate " "
        ((if h > 0 then [toString h ++ "h"] else []) ++
         (if m > 0 then [toString m ++ "m"] else []) ++
         (if sec > 0 ∨ (h = 0 ∧ m = 0) then [toString sec ++ "s"] else []))) ∧
    format_time 0 = "0s" ∧ format_time 3661 = "1h 1m 1s" ∧ format_time (-5) = "0s" := by
  refine ⟨?_, ?_, by decide, by decide, by decide⟩
  · intro s hs
    unfold format_time
    rw [if_pos hs]
  · intro s hs
    refine ⟨s.toNat / 3600, s.toNat % 3600 / 60, s.toNat % 60, by omega, by omega, by omega, ?_⟩
    unfold format_time
    rw [if_neg (by omega)]

/-- Witness for C6 at -7 and 3661. -/
theorem format_time_spec_witness :
    format_time (-7) = "0s" ∧
    (∃ h m sec : Nat, (3661 : Int).toNat = 3600 * h + 60 * m + sec ∧ m < 60 ∧ sec < 60 ∧
      format_time 3661 = String.intercalate " "
        ((if h > 0 then [toString h ++ "h"] else []) ++
         (if m > 0 then [toString m ++ "m"] else []) ++
         (if sec > 0 ∨ (h = 0 ∧ m = 0) then [toString sec ++ "s"] else []))) :=
  ⟨format_time_spec.1 (-7) (by decide), format_time_spec.2.1 3661 (by decide)⟩

/-! ## C7: format_size -/

lemma sizeLoop_invariant : ∀ (fuel n den idx : Nat),
    idx ≤ (sizeLoop fuel n den idx).1 ∧
    (sizeLoop fuel n den idx).1 ≤ idx + fuel ∧
    (sizeLoop fuel n den idx).2 = den * 1024 ^ ((sizeLoop fuel n den idx).1 - idx) ∧
    ((sizeLoop fuel n den idx).1 = idx ∨ (sizeLoop fuel n den idx).2 ≤ n) ∧
    ((sizeLoop fuel n den idx).1 = idx + fuel ∨ n < 1024 * (sizeLoop fuel n den idx).2) := by
  intro fuel
  induction fuel with
  | zero =>
    intro n den idx
    simp [sizeLoop]
  | succ fuel ih =>
    intro n den idx
    unfold sizeLoop
    by_cases hc : 1024 * den ≤ n
    · rw [if_pos hc]
      obtain ⟨h1, h2, h3, h4, h5⟩ := ih n (den * 1024) (idx + 1)
      have hpow : den * 1024 * 1024 ^ ((sizeLoop fuel n (den * 1024) (idx + 1)).1 - (idx + 1)) =
          den * 1024 ^ ((sizeLoop fuel n (den * 1024) (idx + 1)).1 - idx) := by
        have hd : (sizeLoop fuel n (den * 1024) (idx + 1)).1 - idx =
            ((sizeLoop fuel n (den * 1024) (idx + 1)).1 - (idx + 1)) + 1 := by omega
        rw [hd, pow_succ]
        ring
      refine ⟨by omega, by omega, by rw [h3, hpow], ?_, by omega⟩
      rcases h4 with h | h
      · right
        rw [h3, h]
        simp only [Nat.add_sub_cancel_left, Nat.sub_self, pow_zero, mul_one]
        omega
      · exact Or.inr h
    · rw [if_neg hc]
      refine ⟨Nat.le_refl idx, ?_, ?_, Or.inl rfl, Or.inr ?_⟩
      · show idx ≤ idx + (fuel + 1)
        omega
      · show den = den * 1024 ^ (idx - idx)
        simp
      · show n < 1024 * den
        omega

set_option maxRecDepth 20000 in
/-- Counterexample to C7 as stated ("for every integer byte count ... it
decomposes ... and joins"). At `2^1024` the conversion `float(bytes_size)`
raises `OverflowError`, so no string is returned at all. At
`2^37 * 65537 + 1` (a 54-bit count) the program prints "8192.12 TB" — the
two-decimal rendering of the IEEE-rounded double `2^37 * 65537` — while
two-decimal round-half-even of the exact value `n / 1024^4` is "8192.13":
the printed value is the rounded double, not the exact byte count. -/
theorem format_size_claim_counterexample :
    format_size (179769313486231590772930519078902473361797697894230657273430081157732675805500963132708477322407536021120113879871393357658789768814416622492847430639474124377767893424865485276302219601246094119453082952085005768838150682342462881473913110540827237163350510684586298239947245938479716304835356329624224137216 : Int) = none ∧
    (179769313486231590772930519078902473361797697894230657273430081157732675805500963132708477322407536021120113879871393357658789768814416622492847430639474124377767893424865485276302219601246094119453082952085005768838150682342462881473913110540827237163350510684586298239947245938479716304835356329624224137216 : Int) = ((2 : Int) ^ 1024 : Int) ∧
    format_size (((2 : Nat) ^ 37 * 65537 + 1 : Nat) : Int) = some "8192.12 TB" ∧
    twoDec (2 ^ 37 * 65537 + 1) (1024 ^ 4) = "8192.13" := by
  refine ⟨by decide, by norm_num, by decide, by decide⟩

/-- C7 (amended). `format_size`: negative byte counts give "0 B". A
nonnegative count is first converted to the nearest IEEE-754 double (exact
below `2^53`); when the conversion overflows (counts reaching `2^1024` after
rounding) the `OverflowError` propagates and no string is returned.
Otherwise the double's integer value `n` is divided by 1024 exactly `k`
times, where `k ≤ 4` stops as soon as the value drops below 1024 or the
unit ladder B/KB/MB/GB/TB is exhausted; unit index 0 prints the integer
value and every other unit prints `n / 1024^k` with two decimal places;
includes the three specified examples. -/
theorem format_size_spec :
    (∀ b : Int, b < 0 → format_size b = some "0 B") ∧
    (∀ b : Int, 0 ≤ b → ∀ n : Nat, floatOfNat b.toNat = some n →
      ∃ k : Nat, k ≤ 4 ∧
      (k = 0 ∨ 1024 ^ k ≤ n) ∧ (k = 4 ∨ n < 1024 ^ (k + 1)) ∧
      format_size b = (if k = 0 then some (toString n ++ " B")
        else some (twoDec n (1024 ^ k) ++ " " ++ sizeUnits.getD k ""))) ∧
    format_size 500 = some "500 B" ∧ format_size 1536 = some "1.50 KB" ∧
    format_size (-1) = some "0 B" := by
  refine ⟨?_, ?_, by decide, by decide, by decide⟩
  · intro b hb
    unfold format_size
    rw [if_pos hb]
  · intro b hb n hn
    obtain ⟨h1, h2, h3, h4, h5⟩ := sizeLoop_invariant 4 n 1 0
    rw [one_mul, Nat.sub_zero] at h3
    refine ⟨(sizeLoop 4 n 1 0).1, by omega, ?_, ?_, ?_⟩
    · rcases h4 with h | h
      · exact Or.inl h
      · exact Or.inr (h3 ▸ h)
    · rcases h5 with h | h
      · exact Or.inl (by omega)
      · right
        rw [pow_succ]
        rw [h3] at h
        omega
    · unfold format_size
      rw [if_neg (by omega)]
      simp only [hn]
      simp only [← h3]

/-- Witness for C7 at -3 and 2048 (where the float conversion is exact). -/
theorem format_size_spec_witness :
    format_size (-3) = some "0 B" ∧
    (∃ k : Nat, k ≤ 4 ∧
      (k = 0 ∨ 1024 ^ k ≤ 2048) ∧ (k = 4 ∨ 2048 < 1024 ^ (k + 1)) ∧
      format_size 2048 = (if k = 0 then some (toString (2048 : Nat) ++ " B")
        else some (twoDec 2048 (1024 ^ k) ++ " " ++ sizeUnits.getD k ""))) :=
  ⟨format_size_spec.1 (-3) (by decide),
   format_size_spec.2.1 2048 (by decide) 2048 (by decide)⟩

/-! ## C8: get_display_name -/

/-- C8. `get_display_name`: `None` gives "Unknown"; a user-like value gives
the trimmed concatenation of its first and last names ("Unknown" when both
are blank, the first name alone when only a first name is set); a chat-like
value gives its title, "Unknown" when the title is blank (blank = Python
falsy: `None` or empty). -/
theorem get_display_name_spec :
    get_display_name UserOrChat.nullUser = "Unknown" ∧
    (∀ f l : Option String, pyTruthy f = false → pyTruthy l = false →
      get_display_name (UserOrChat.user f l) = "Unknown") ∧
    (∀ (s : String) (l : Option String), pyStrip s.data = s.data → s ≠ "" →
      pyTruthy l = false → get_display_name (UserOrChat.user (some s) l) = s) ∧
    (∀ s t : String, s ≠ "" → t ≠ "" → pyStrip (s ++ " " ++ t).data ≠ [] →
      get_display_name (UserOrChat.user (some s) (some t)) =
        String.mk (pyStrip (s ++ " " ++ t).data)) ∧
    (∀ t : String, t ≠ "" → get_display_name (UserOrChat.chat (some t)) = t) ∧
    get_display_name (UserOrChat.chat none) = "Unknown" ∧
    get_display_name (UserOrChat.chat (some "")) = "Unknown" := by
  refine ⟨rfl, ?_, ?_, ?_, ?_, rfl, rfl⟩
  · intro f l hf hl
    cases f with
    | none => simp [get_display_name, hl, pyStrip]
    | some s =>
      simp only [pyTruthy, ne_eq, decide_eq_false_iff_not, not_not] at hf
      subst hf
      simp [get_display_name, hl, pyStrip]
  · intro s l hstrip hs hl
    have hmk : String.mk s.data = s := rfl
    simp [get_display_name, hl, hstrip, hmk, hs]
  · intro s t hs ht hstrip
    have htr : pyTruthy (some t) = true := by simp [pyTruthy, ht]
    have hdata : (s ++ " " ++ t).data = s.data ++ ' ' :: t.data := by simp
    have hstrip2 : pyStrip (s.data ++ ' ' :: t.data) ≠ [] := by
      rw [← hdata]
      exact hstrip
    have hne : ({ data := pyStrip (s.data ++ ' ' :: t.data) } : String) ≠ "" := by
      intro h
      apply hstrip2
      simpa [String.ext_iff] using h
    simp [get_display_name, htr, hne]
  · intro t ht
    have htr : pyTruthy (some t) = true := by simp [pyTruthy, ht]
    simp [get_display_name, htr]

/-- Witness for C8 at concrete users and chats. -/
theorem get_display_name_spec_witness :
    get_display_name (UserOrChat.user none none) = "Unknown" ∧
    get_display_name (UserOrChat.user (some "John") none) = "John" ∧
    get_display_name (UserOrChat.user (some "John") (some "Doe")) =
      String.mk (pyStrip ("John" ++ " " ++ "Doe").data) ∧
    get_display_name (UserOrChat.chat (some "My Chat")) = "My Chat" :=
  ⟨get_display_name_spec.2.1 none none (by decide) (by decide),
   get_display_name_spec.2.2.1 "John" none (by decide) (by decide) (by decide),
   get_display_name_spec.2.2.2.1 "John" "Doe" (by decide) (by decide) (by decide),
   get_display_name_spec.2.2.2.2.1 "My Chat" (by decide)⟩

/-! ## C9: get_message_text -/

/-- C9. `get_message_text` prefers the text over the caption when both are
present, returns the caption when only the caption is present, and returns ""
when neither is present (present = Python truthy: not `None` and not empty,
matching the `or`-chain in the source). -/
theorem get_message_text_spec :
    (∀ t c : String, t ≠ "" → c ≠ "" →
      get_message_text ⟨some t, some c⟩ = t) ∧
    (∀ t : String, t ≠ "" → ∀ c : Option String,
      get_message_text ⟨some t, c⟩ = t) ∧
    (∀ c : String, c ≠ "" → ∀ t : Option String, pyTruthy t = false →
      get_message_text ⟨t, some c⟩ = c) ∧
    (∀ t c : Option String, pyTruthy t = false → pyTruthy c = false →
      get_message_text ⟨t, c⟩ = "") := by
  refine ⟨?_, ?_, ?_, ?_⟩
  · intro t c ht _
    have htr : pyTruthy (some t) = true := by simp [pyTruthy, ht]
    simp [get_message_text, htr]
  · intro t ht c
    have htr : pyTruthy (some t) = true := by simp [pyTruthy, ht]
    simp [get_message_text, htr]
  · intro c hc t htf
    have hcr : pyTruthy (some c) = true := by simp [pyTruthy, hc]
    simp [get_message_text, htf, hcr]
  · intro t c htf hcf
    simp [get_message_text, htf, hcf]

/-- Witness for C9 at concrete contents. -/
theorem get_message_text_spec_witness :
    get_message_text ⟨some "hi", some "cap"⟩ = "hi" ∧
    get_message_text ⟨some "hi", none⟩ = "hi" ∧
    get_message_text ⟨none, some "cap"⟩ = "cap" ∧
    get_message_text ⟨none, none⟩ = "" :=
  ⟨get_message_text_spec.1 "hi" "cap" (by decide) (by decide),
   get_message_text_spec.2.1 "hi" (by decide) none,
   get_message_text_spec.2.2.1 "cap" (by decide) none (by decide),
   get_message_text_spec.2.2.2 none none (by decide) (by decide)⟩

/-! ## C10: extract_code_from_message -/

lemma isWordChar_of_isDigit (c : Char) (h : c.isDigit = true) : isWordChar c = true := by
  simp [isWordChar, Char.isAlphanum, h]

lemma takeDigits_sound : ∀ (n : Nat) (cs ds rest : List Char),
    takeDigits n cs = some (ds, rest) →
    cs = ds ++ rest ∧ ds.length = n ∧ ds.all Char.isDigit = true := by
  intro n
  induction n with
  | zero =>
    intro cs ds rest h
    simp only [takeDigits, Option.some.injEq, Prod.mk.injEq] at h
    obtain ⟨rfl, rfl⟩ := h
    simp
  | succ n ih =>
    intro cs ds rest h
    cases cs with
    | nil => simp [takeDigits] at h
    | cons c cs' =>
      simp only [takeDigits] at h
      by_cases hd : c.isDigit
      · rw [if_pos hd] at h
        cases hp : takeDigits n cs' with
        | none => rw [hp] at h; cases h
        | some p =>
          obtain ⟨ds', rest'⟩ := p
          rw [hp] at h
          simp at h
          obtain ⟨h4, h5⟩ := h
          subst h4
          subst h5
          obtain ⟨h1, h2, h3⟩ := ih cs' ds' rest' hp
          refine ⟨by rw [h1]; rfl, by simp [h2], ?_⟩
          simp [List.all_cons, hd, h3]
      · rw [if_neg hd] at h
        cases h

lemma takeDigits_complete : ∀ (ds rest : List Char), ds.all Char.isDigit = true →
    takeDigits ds.length (ds ++ rest) = some (ds, rest) := by
  intro ds
  induction ds with
  | nil => intro rest _; simp [takeDigits]
  | cons c ds ih =>
    intro rest hall
    simp only [List.all_cons, Bool.and_eq_true] at hall
    simp only [List.length_cons, List.cons_append, takeDigits, if_pos hall.1]
    have := ih rest hall.2
    simp only [List.append_eq] at this ⊢
    rw [this]
    rfl

lemma takeDigits_append : ∀ (ds rest : List Char) (k : Nat), ds.all Char.isDigit = true →
    takeDigits (ds.length + k) (ds ++ rest) =
      (takeDigits k rest).map (fun p => (ds ++ p.1, p.2)) := by
  intro ds
  induction ds with
  | nil =>
    intro rest k _
    simp only [List.length_nil, Nat.zero_add, List.nil_append]
    cases takeDigits k rest <;> simp
  | cons c ds ih =>
    intro rest k hall
    simp only [List.all_cons, Bool.and_eq_true] at hall
    have hlen : (c :: ds).length + k = (ds.length + k) + 1 := by simp; omega
    rw [hlen]
    simp only [List.cons_append, takeDigits, if_pos hall.1]
    have := ih rest k hall.2
    simp only [List.append_eq] at this ⊢
    rw [this]
    cases takeDigits k rest <;> simp

lemma matchAt_sound (flag : Bool) (cs run : List Char)
    (h : matchAt flag cs = some run) :
    flag = false ∧ ∃ post, cs = run ++ post ∧
      (run.length = 5 ∨ run.length = 6) ∧ run.all Char.isDigit = true ∧
      nonWordEdge post.head? = true := by
  unfold matchAt at h
  split at h
  · cases h
  · rename_i hf
    refine ⟨by simpa using hf, ?_⟩
    split at h
    · rename_i ds rest heq6
      split at h
      · rename_i he
        cases h
        obtain ⟨h1, h2, h3⟩ := takeDigits_sound 6 cs run rest heq6
        exact ⟨rest, h1, Or.inr h2, h3, he⟩
      · split at h
        · rename_i ds5 rest5 heq5
          split at h
          · rename_i he5
            cases h
            obtain ⟨h1, h2, h3⟩ := takeDigits_sound 5 cs run rest5 heq5
            exact ⟨rest5, h1, Or.inl h2, h3, he5⟩
          · cases h
        · cases h
    · split at h
      · rename_i ds5 rest5 heq5
        split at h
        · rename_i he5
          cases h
          obtain ⟨h1, h2, h3⟩ := takeDigits_sound 5 cs run rest5 heq5
          exact ⟨rest5, h1, Or.inl h2, h3, he5⟩
        · cases h
      · cases h

lemma matchAt_complete (run post : List Char)
    (hlen : run.length = 5 ∨ run.length = 6) (hdig : run.all Char.isDigit = true)
    (hedge : nonWordEdge post.head? = true) :
    matchAt false (run ++ post) = some run := by
  unfold matchAt
  rw [if_neg (by simp)]
  rcases hlen with h5 | h6
  · have h6none : takeDigits 6 (run ++ post) = none := by
      have happ := takeDigits_append run post 1 hdig
      rw [h5] at happ
      rw [show (5 + 1 : Nat) = 6 from rfl] at happ
      have h1 : takeDigits 1 post = none := by
        cases post with
        | nil => rfl
        | cons c post' =>
          simp only [nonWordEdge, List.head?] at hedge
          have hcd : c.isDigit = false := by
            by_contra hc
            rw [isWordChar_of_isDigit c (by simpa using hc)] at hedge
            simp at hedge
          simp [takeDigits, hcd]
      rw [h1] at happ
      simpa using happ
    have h5take : takeDigits 5 (run ++ post) = some (run, post) := by
      rw [← h5]
      exact takeDigits_complete run post hdig
    rw [h6none, h5take]
    simp [hedge]
  · have h6take : takeDigits 6 (run ++ post) = some (run, post) := by
      rw [← h6]
      exact takeDigits_complete run post hdig
    rw [h6take]
    simp [hedge]

lemma edgeOkBefore_nil (flag : Bool) : edgeOkBefore flag [] ↔ flag = false := by
  simp [edgeOkBefore]

lemma edgeOkBefore_cons (flag : Bool) (c : Char) (pre : List Char) :
    edgeOkBefore flag (c :: pre) ↔ edgeOkBefore (isWordChar c) pre := by
  cases pre with
  | nil => simp [edgeOkBefore]
  | cons d pre' =>
    unfold edgeOkBefore
    rw [List.getLast?_cons_cons]
    cases hgl : (d :: pre').getLast? with
    | none =>
      rw [List.getLast?_eq_none_iff] at hgl
      cases hgl
    | some e =>
      exact Iff.rfl

lemma codeRunAux_nil (flag : Bool) (i : Nat) (run : List Char) :
    ¬ CodeRunAux flag [] i run := by
  rintro ⟨pre, post, hcs, _, hl, _, _, _⟩
  have := congrArg List.length hcs
  simp at this
  rcases hl with h | h <;> omega

lemma codeRunAux_zero (flag : Bool) (cs run : List Char) :
    CodeRunAux flag cs 0 run ↔
      (flag = false ∧ ∃ post, cs = run ++ post ∧ (run.length = 5 ∨ run.length = 6) ∧
        run.all Char.isDigit = true ∧ nonWordEdge post.head? = true) := by
  constructor
  · rintro ⟨pre, post, hcs, hlen, hl, hd, hb, he⟩
    have hpre : pre = [] := List.length_eq_zero.mp hlen
    subst hpre
    exact ⟨(edgeOkBefore_nil flag).mp hb, post, by simpa using hcs, hl, hd, he⟩
  · rintro ⟨hf, post, hcs, hl, hd, he⟩
    exact ⟨[], post, by simpa using hcs, rfl, hl, hd, (edgeOkBefore_nil flag).mpr hf, he⟩

lemma codeRunAux_succ (flag : Bool) (c : Char) (rest : List Char) (j : Nat) (run : List Char) :
    CodeRunAux flag (c :: rest) (j + 1) run ↔ CodeRunAux (isWordChar c) rest j run := by
  constructor
  · rintro ⟨pre, post, hcs, hlen, hl, hd, hb, he⟩
    cases pre with
    | nil => simp at hlen
    | cons p pre' =>
      simp only [List.cons_append] at hcs
      injection hcs with hc hrest
      subst hc
      refine ⟨pre', post, hrest, by simpa using hlen, hl, hd, ?_, he⟩
      exact (edgeOkBefore_cons flag c pre').mp hb
  · rintro ⟨pre', post, hcs, hlen, hl, hd, hb, he⟩
    refine ⟨c :: pre', post, by simp [hcs], by simp [hlen], hl, hd, ?_, he⟩
    exact (edgeOkBefore_cons flag c pre').mpr hb

lemma reSearch_spec : ∀ (cs : List Char) (flag : Bool),
    (reSearch flag cs = none → ∀ i run, ¬ CodeRunAux flag cs i run) ∧
    (∀ r, reSearch flag cs = some r →
      ∃ i, CodeRunAux flag cs i r ∧ ∀ j run, CodeRunAux flag cs j run → i ≤ j) := by
  intro cs
  induction cs with
  | nil =>
    intro flag
    constructor
    · intro _ i run
      exact codeRunAux_nil flag i run
    · intro r h
      simp [reSearch] at h
  | cons c rest ih =>
    intro flag
    have hstep : reSearch flag (c :: rest) =
        match matchAt flag (c :: rest) with
        | some ds => some ds
        | none => reSearch (isWordChar c) rest := rfl
    cases hm : matchAt flag (c :: rest) with
    | some ds =>
      have hr : reSearch flag (c :: rest) = some ds := by rw [hstep, hm]
      constructor
      · intro h
        rw [hr] at h
        cases h
      · intro r h
        rw [hr] at h
        cases h
        refine ⟨0, ?_, fun j run _ => Nat.zero_le j⟩
        obtain ⟨hf, post, hcs, hl, hd, he⟩ := matchAt_sound flag (c :: rest) ds hm
        exact (codeRunAux_zero flag _ ds).mpr ⟨hf, post, hcs, hl, hd, he⟩
    | none =>
      have hr : reSearch flag (c :: rest) = reSearch (isWordChar c) rest := by rw [hstep, hm]
      have hzero : ∀ run, ¬ CodeRunAux flag (c :: rest) 0 run := by
        intro run hrun
        obtain ⟨hf, post, hcs, hl, hd, he⟩ := (codeRunAux_zero flag _ run).mp hrun
        subst hf
        rw [hcs, matchAt_complete run post hl hd he] at hm
        cases hm
      constructor
      · intro h i run hrun
        rw [hr] at h
        cases i with
        | zero => exact hzero run hrun
        | succ j =>
          exact (ih (isWordChar c)).1 h j run ((codeRunAux_succ flag c rest j run).mp hrun)
      · intro r h
        rw [hr] at h
        obtain ⟨j, hrun, hmin⟩ := (ih (isWordChar c)).2 r h
        refine ⟨j + 1, (codeRunAux_succ flag c rest j r).mpr hrun, ?_⟩
        intro j' run' hrun'
        cases j' with
        | zero => exact absurd hrun' (hzero run')
        | succ j'' =>
          exact Nat.succ_le_succ (hmin j'' run' ((codeRunAux_succ flag c rest j'' run').mp hrun'))

/-- C10. `extract_code_from_message` returns `none` iff the text has no run of
exactly 5 or 6 consecutive digits delimited on both sides by word boundaries
(not adjacent to a letter, digit, or underscore); otherwise it returns the
leftmost such run. In particular a run of 7 or more digits never matches
within itself (its sub-runs are adjacent to digits), e.g. on "1234567". -/
theorem extract_code_spec (s : String) :
    ((extract_code_from_message s = none) ↔ ∀ i run, ¬ CodeRun s.data i run) ∧
    (∀ r, extract_code_from_message s = some r →
      ∃ i run, CodeRun s.data i run ∧ r = String.mk run ∧
        ∀ j run', CodeRun s.data j run' → i ≤ j) ∧
    extract_code_from_message "1234567" = none := by
  obtain ⟨h1, h2⟩ := reSearch_spec s.data false
  refine ⟨?_, ?_, by decide⟩
  · unfold extract_code_from_message CodeRun
    by_cases hs : s = ""
    · rw [if_pos hs]
      subst hs
      constructor
      · intro _ i run
        rw [show ("" : String).data = [] from rfl]
        exact codeRunAux_nil false i run
      · intro _
        rfl
    · rw [if_neg hs]
      constructor
      · intro h
        have hnone : reSearch false s.data = none := by
          cases hr : reSearch false s.data with
          | none => rfl
          | some r =>
            rw [hr] at h
            simp at h
        exact h1 hnone
      · intro hno
        cases hr : reSearch false s.data with
        | none => rfl
        | some r =>
          obtain ⟨i, hrun, _⟩ := h2 r hr
          exact absurd hrun (hno i r)
  · unfold extract_code_from_message CodeRun
    by_cases hs : s = ""
    · rw [if_pos hs]
      intro r h
      cases h
    · rw [if_neg hs]
      intro r h
      cases hr : reSearch false s.data with
      | none =>
        rw [hr] at h
        cases h
      | some r' =>
        rw [hr] at h
        simp at h
        obtain ⟨i, hrun, hmin⟩ := h2 r' hr
        exact ⟨i, r', hrun, h.symm, fun j run' hrun' => hmin j run' hrun'⟩

/-- Witness for C10 at the concrete text "ab 12345 cd". -/
theorem extract_code_spec_witness :
    ∃ i run, CodeRun "ab 12345 cd".data i run ∧ ("12345" : String) = String.mk run ∧
      ∀ j run', CodeRun "ab 12345 cd".data j run' → i ≤ j :=
  (extract_code_spec "ab 12345 cd").2.1 "12345" (by decide)
